import Mathlib

/-!
Verification development for the `de4rec` dual-encoder recommender
(`src/de4rec/train.py`).

The Python code is shallowly embedded in Lean:

* numpy float arrays of item weights become `List ℚ`;
* the global numpy random generator is modelled as a stream `s : ℕ → ℚ`
  together with a cursor `c : ℕ`: each elementary draw reads `Int.fract (s c)`
  (a uniform number in `[0,1)`) and advances the cursor;
* `np.random.choice(items, size, replace=False, p)` is modelled by
  `npChoice`: it fails (the `ValueError` branch) exactly when the number of
  candidates carrying positive probability is smaller than `size`, and
  otherwise performs `size` successive cdf-inversion draws, zeroing the
  weight of each drawn index, which is how the legacy numpy generator
  implements weighted drawing without replacement;
* `np.argsort` (ascending, deterministic) is modelled by a deterministic
  sort of the index list `[0, …, n-1]` by weight;
* Python exceptions at the inference API become `Option` (`none` = raise).
-/

attribute [local semireducible] Rat.add Rat.mul Rat.sub Rat.inv Rat.ofScientific

namespace De4Rec

/-- One uniform draw in `[0,1)` taken from the stream `s` at cursor `c`. -/
def unif (s : ℕ → ℚ) (c : ℕ) : ℚ := Int.fract (s c)

/-- Cdf inversion on an (unnormalised) weight list: the first index `j` whose
cumulative weight strictly exceeds the target `t`.  This is
`cdf.searchsorted(x, side="right")` on the cumulative distribution of the
weights, expressed on the unnormalised weights (`t = x * total`). -/
def cumPick : List ℚ → ℚ → Option ℕ
  | [], _ => none
  | w :: ws, t => if t < w then some 0 else (cumPick ws (t - w)).map (fun j => j + 1)

/-- Number of entries carrying positive weight (numpy's
`np.count_nonzero(p > 0)` for a non-negative `p`). -/
def posCount (w : List ℚ) : ℕ := w.countP (fun x => decide (0 < x))

/-- Perform `m` successive weighted draws without replacement, as index positions into
the weight list: each step draws one index by cdf inversion at target
`unif s c * (current total)` and zeroes the drawn index's weight, exactly the
loop the legacy numpy generator runs for `replace=False` with probabilities. -/
def drawLoop (s : ℕ → ℚ) : ℕ → ℕ → List ℚ → List ℕ
  | _, 0, _ => []
  | c, m + 1, w =>
    match cumPick w (unif s c * w.sum) with
    | none => []
    | some j => j :: drawLoop s (c + 1) m (w.set j 0)

/-- Model of `np.random.choice(items, size=size, replace=False, p=w)` (with
`w` the unnormalised non-negative weights; the code's division by `w.sum`
only rescales the cdf and is absorbed into the target computation).
`none` is the `ValueError` ("fewer non-zero entries in p than size") branch,
which fires exactly when fewer than `size` candidates have positive weight;
this also covers the all-zero-weight case, where the Python code's
normalisation produces `NaN` probabilities and `np.count_nonzero(p > 0)` is
`0`. -/
def npChoice (items : List ℕ) (w : List ℚ) (size : ℕ) (s : ℕ → ℚ) (c : ℕ) :
    Option (List ℕ) :=
  if size ≤ posCount w then
    some ((drawLoop s c size w).map (fun j => items.getD j 0))
  else none

/-- Number of stream values `np.random.choice` consumes: one per draw on
success, none when the feasibility check raises `ValueError`. -/
def npChoiceConsumed (w : List ℚ) (size : ℕ) : ℕ :=
  if size ≤ posCount w then size else 0

/-- Model of `freq_dist_copy[pos_item_ids] = 0` — zero the weights of the given ids. -/
def zeroIds (w : List ℚ) (ids : List ℕ) : List ℚ :=
  ids.foldl (fun v i => v.set i 0) w

/-- Model of `np.argsort` ascending by weight, modelled as a deterministic sort of the
index list `[0, …, n-1]` by weight value. -/
def argsortAsc (w : List ℚ) : List ℕ :=
  List.insertionSort (fun i j => w.getD i 0 ≤ w.getD j 0) (List.range w.length)

/-- Model of `int(len(freq_dist_copy) * freq_margin)` — Python `int()` truncation,
which is the floor for the non-negative values arising here. -/
def freqMarginNum (n : ℕ) (freq_margin : ℚ) : ℕ :=
  (⌊(n : ℚ) * freq_margin⌋).toNat

/-- The weight array of `neg_choice` after the positives are zeroed:
`freq_dist_copy` with `freq_dist_copy[pos_item_ids] = 0` applied
(deduplication of `pos_item_ids` does not change which entries are zeroed). -/
def negChoiceZeroed (freq_dist : List ℚ) (pos_item_ids : List ℕ) : List ℚ :=
  zeroIds freq_dist pos_item_ids.dedup

/-- The candidate pool `item_id_to_choice = np.argsort(freq_dist_copy)[-freq_margin_num:]`
of `neg_choice`.  Python slicing `a[-k:]` yields the last `k` elements when
`k ≥ 1` but the whole array when `k = 0` (since `-0 = 0`), hence the case
split. -/
def negChoicePool (freq_dist : List ℚ) (pos_item_ids : List ℕ)
    (freq_margin : ℚ) : List ℕ :=
  let w := negChoiceZeroed freq_dist pos_item_ids
  let num := freqMarginNum freq_dist.length freq_margin
  let sorted := argsortAsc w
  if num = 0 then sorted else sorted.drop (sorted.length - num)

/-- The kept weights `freq_dist_copy = freq_dist_copy[item_id_to_choice]`
(before the normalisation `freq_dist_copy / freq_dist_copy.sum()`, which only
rescales the distribution and is absorbed into `npChoice`). -/
def negChoiceKept (freq_dist : List ℚ) (pos_item_ids : List ℕ)
    (freq_margin : ℚ) : List ℚ :=
  (negChoicePool freq_dist pos_item_ids freq_margin).map
    (fun j => (negChoiceZeroed freq_dist pos_item_ids).getD j 0)

/-- The count `n_samples = neg_per_sample * len(pos_item_ids)` after
`pos_item_ids = np.array(list(set(pos_item_ids)))`. -/
def negChoiceSampleCount (pos_item_ids : List ℕ) (neg_per_sample : ℕ) : ℕ :=
  neg_per_sample * pos_item_ids.dedup.length

/-- Model of `DualEncoderDatasets.neg_choice`: zero the positives' weights, keep the
top `int(items_size * freq_margin)` ids by weight, and draw
`neg_per_sample * |set(pos_item_ids)|` ids from them without replacement;
on the `ValueError` branch return that many copies of the sentinel id `0`. -/
def neg_choice (freq_dist : List ℚ) (pos_item_ids : List ℕ)
    (freq_margin : ℚ) (neg_per_sample : ℕ) (s : ℕ → ℚ) (c : ℕ) : List ℕ :=
  let pool := negChoicePool freq_dist pos_item_ids freq_margin
  let kept := negChoiceKept freq_dist pos_item_ids freq_margin
  let n_samples := negChoiceSampleCount pos_item_ids neg_per_sample
  match npChoice pool kept n_samples s c with
  | some res => res
  | none => List.replicate n_samples 0

/-- How many stream values the `neg_choice` call consumes. -/
def negChoiceConsumed (freq_dist : List ℚ) (pos_item_ids : List ℕ)
    (freq_margin : ℚ) (neg_per_sample : ℕ) : ℕ :=
  npChoiceConsumed (negChoiceKept freq_dist pos_item_ids freq_margin)
    (negChoiceSampleCount pos_item_ids neg_per_sample)

/-- Model of `DualEncoderDatasets`: the interaction list plus the user and item
catalogues (id, display string). -/
structure DualEncoderDatasets where
  interactions : List (ℕ × ℕ)
  users : List (ℕ × String)
  items : List (ℕ × String)

/-- Model of `self._users_size = max(self.users, key=...)[0] + 1`. -/
def DualEncoderDatasets.users_size (d : DualEncoderDatasets) : ℕ :=
  (d.users.map Prod.fst).foldl max 0 + 1

/-- Model of `self._items_size = max(self.items, key=...)[0] + 1`. -/
def DualEncoderDatasets.items_size (d : DualEncoderDatasets) : ℕ :=
  (d.items.map Prod.fst).foldl max 0 + 1

/-- Model of `freq_dist[item_id] = freq_dist[item_id] + 1`. -/
def bumpFreq (fd : List ℚ) (i : ℕ) : List ℚ :=
  fd.set i (fd.getD i 0 + 1)

/-- Model of `pos_interactions[user_id] = pos_interactions.get(user_id, []) + [item_id]`
on an insertion-ordered association list (Python dict semantics: an existing
key is updated in place, a new key is appended at the end). -/
def addPos : List (ℕ × List ℕ) → ℕ → ℕ → List (ℕ × List ℕ)
  | [], u, i => [(u, [i])]
  | (v, l) :: rest, u, i =>
    if v = u then (v, l ++ [i]) :: rest else (v, l) :: addPos rest u i

/-- One loop iteration of `make_pos_distributions`: bump the interacted
item's frequency and record the item under its user. -/
def posStep (st : List ℚ × List (ℕ × List ℕ)) (ui : ℕ × ℕ) :
    List ℚ × List (ℕ × List ℕ) :=
  (bumpFreq st.1 ui.2, addPos st.2 ui.1 ui.2)

/-- Model of `DualEncoderDatasets.make_pos_distributions`: start from the all-ones
array of length `items_size`, add one per interaction to the interacted
item's weight, and collect each user's item ids in interaction order. -/
def make_pos_distributions (items_size : ℕ) (interactions : List (ℕ × ℕ)) :
    List ℚ × List (ℕ × List ℕ) :=
  interactions.foldl posStep (List.replicate items_size (1 : ℚ), [])

/-- Lookup in the insertion-ordered association list (dict access). -/
def dictGet (u : ℕ) : List (ℕ × List ℕ) → List ℕ
  | [] => []
  | (v, l) :: rest => if v = u then l else dictGet u rest

/-- Model of `DualEncoderDatasets.make_negative_samples`: per-user negative sampling
over the `pos_interactions` items, in dict order.  The thread-pool `map`
returns results in submission order; the draws are modelled under the
sequential schedule, threading the global generator cursor through the users
in that order. -/
def make_negative_samples_run (items_size : ℕ) (interactions : List (ℕ × ℕ))
    (freq_margin : ℚ) (neg_per_sample : ℕ) (s : ℕ → ℚ) (c : ℕ) :
    List (ℕ × List ℕ × List ℕ) × ℕ :=
  let fdpi := make_pos_distributions items_size interactions
  fdpi.2.foldl
    (fun acc t =>
      (acc.1 ++ [(t.1, t.2, neg_choice fdpi.1 t.2 freq_margin neg_per_sample s acc.2)],
        acc.2 + negChoiceConsumed fdpi.1 t.2 freq_margin neg_per_sample))
    ([], c)

/-- Model of `DualEncoderDatasets.create_dataset`: for each `(user, positives,
negatives)` triple, for each `zip`-pair, append a `+1` example for the
positive and then a `-1` example for the paired negative. -/
def create_dataset (pos_neg_interactions : List (ℕ × List ℕ × List ℕ)) :
    List (ℕ × ℕ × ℤ) :=
  pos_neg_interactions.foldl
    (fun ds t =>
      (t.2.1.zip t.2.2).foldl
        (fun ds2 pq => ds2 ++ [(t.1, pq.1, (1 : ℤ)), (t.1, pq.2, (-1 : ℤ))])
        ds)
    []

/-- Modelled from the spec: `DualEncoderDatasets.__train_eval_split` calls
`torch.utils.data.random_split(dataset, [0.95, 0.05], generator seeded 42)`,
whose index permutation lives in the external torch library, not in this
repository.  The spec only requires a deterministic seeded disjoint 95/5
covering partition of the example list; it is modelled here with a fixed
(identity) index permutation and torch's length arithmetic (floors plus
remainder to the first part): train gets `n - n / 20` examples, eval the
remaining `n / 20`. -/
def train_eval_split (dataset : List (ℕ × ℕ × ℤ)) :
    List (ℕ × ℕ × ℤ) × List (ℕ × ℕ × ℤ) :=
  (dataset.take (dataset.length - dataset.length / 20),
    dataset.drop (dataset.length - dataset.length / 20))

/-- Model of `DualEncoderDatasets.split`: negative sampling, example assembly, then
the seeded train/eval split; returns the split plus the advanced global
generator cursor. -/
def split_run (d : DualEncoderDatasets) (freq_margin : ℚ) (neg_per_sample : ℕ)
    (s : ℕ → ℚ) (c : ℕ) :
    (List (ℕ × ℕ × ℤ) × List (ℕ × ℕ × ℤ)) × ℕ :=
  let pni := make_negative_samples_run d.items_size d.interactions
    freq_margin neg_per_sample s c
  (train_eval_split (create_dataset pni.1), pni.2)

/-- Row indexing `weight[i, :]` on a torch tensor: Python semantics, where a
negative index `i` with `-len ≤ i` addresses row `len + i`, and anything
further out of range raises `IndexError` (`none`). -/
def rowIndex (rows : List (List ℚ)) (i : ℤ) : Option (List ℚ) :=
  if 0 ≤ i ∧ i < (rows.length : ℤ) then some (rows.getD i.toNat [])
  else if -(rows.length : ℤ) ≤ i ∧ i < 0 then
    some (rows.getD (rows.length + i).toNat [])
  else none

/-- Ranking relation used to model `torch.topk(..., k).indices`: score
descending, ties broken towards the smaller index (a fixed deterministic
stable order, as the spec's numeric-semantics note allows). -/
def topRel (scores : List ℚ) (i j : ℕ) : Prop :=
  scores.getD j 0 < scores.getD i 0 ∨
    (scores.getD i 0 = scores.getD j 0 ∧ i ≤ j)

instance (scores : List ℚ) : DecidableRel (topRel scores) := fun i j => by
  unfold topRel; infer_instance

instance (scores : List ℚ) : IsTotal ℕ (topRel scores) where
  total i j := by
    unfold topRel
    rcases lt_trichotomy (scores.getD i 0) (scores.getD j 0) with h | h | h
    · exact Or.inr (Or.inl h)
    · rcases Nat.le_total i j with hij | hij
      · exact Or.inl (Or.inr ⟨h, hij⟩)
      · exact Or.inr (Or.inr ⟨h.symm, hij⟩)
    · exact Or.inl (Or.inl h)

instance (scores : List ℚ) : IsTrans ℕ (topRel scores) where
  trans i j k hij hjk := by
    unfold topRel at *
    rcases hij with h1 | ⟨h1, h1'⟩
    · rcases hjk with h2 | ⟨h2, _⟩
      · exact Or.inl (h2.trans h1)
      · exact Or.inl (h2 ▸ h1)
    · rcases hjk with h2 | ⟨h2, h2'⟩
      · exact Or.inl (h1 ▸ h2)
      · exact Or.inr ⟨h1.trans h2, h1'.trans h2'⟩

/-- Model of `torch.topk(scores, k).indices.tolist()`: the first `k` indices of the
score list ranked by `topRel`. -/
def topkIndices (scores : List ℚ) (k : ℕ) : List ℕ :=
  (List.insertionSort (topRel scores) (List.range scores.length)).take k

/-- Model of the fact that `torch.topk` raises when `k` exceeds the number of scores (`none`). -/
def topkOpt (scores : List ℚ) (k : ℕ) : Option (List ℕ) :=
  if k ≤ scores.length then some (topkIndices scores k) else none

/-- Exception-propagating loop body: map each element through a fallible
step, stopping at the first raise. -/
def optionMapList (f : α → Option β) : List α → Option (List β)
  | [] => some []
  | a :: l =>
    match f a with
    | none => none
    | some b => (optionMapList f l).map (fun bs => b :: bs)

/-- Model of `DualEncoderModel.recommend_topk_by_user_ids`: for each requested user
id, index the user embedding table, score every item row against that user
row with the similarity function `sim` (the code's `torch.nn.CosineSimilarity`,
abstracted over the float similarity kernel), and take the top-k item
indices.  Exceptions (`IndexError` from the row lookup, `RuntimeError` from
`topk`) propagate to the caller as `none`. -/
def recommend_topk_by_user_ids (sim : List ℚ → List ℚ → ℚ)
    (userEmb itemEmb : List (List ℚ)) (user_ids : List ℤ) (top_k : ℕ) :
    Option (List (List ℕ)) :=
  optionMapList
    (fun uid =>
      match rowIndex userEmb uid with
      | none => none
      | some urow => topkOpt (itemEmb.map (fun irow => sim urow irow)) top_k)
    user_ids

/-- Elementwise sum of two equal-length vectors. -/
def vecAdd (x y : List ℚ) : List ℚ := (x.zip y).map (fun p => p.1 + p.2)

/-- Model of `tensor.mean(dim=0)`: elementwise mean of the rows. -/
def meanVec (rows : List (List ℚ)) : List ℚ :=
  match rows with
  | [] => []
  | r :: rs => (rs.foldl vecAdd r).map (fun x => x / (rows.length : ℚ))

/-- Model of `DualEncoderModel.recommend_topk_by_item_ids`: average the given items'
embedding rows into a surrogate user vector and take the top-k item indices
by similarity to it. -/
def recommend_topk_by_item_ids (sim : List ℚ → List ℚ → ℚ)
    (itemEmb : List (List ℚ)) (item_ids : List ℤ) (top_k : ℕ) :
    Option (List ℕ) :=
  match optionMapList (fun iid => rowIndex itemEmb iid) item_ids with
  | none => none
  | some rows => topkOpt (itemEmb.map (fun irow => sim (meanVec rows) irow)) top_k

/-- A concrete similarity kernel (dot product) used to instantiate the
similarity-parametric inference theorems on concrete inputs. -/
def dotQ (x y : List ℚ) : ℚ := (x.zip y).foldl (fun a p => a + p.1 * p.2) 0

/-! ### Supporting lemmas: list indexing -/

theorem getD_set_self {w : List ℚ} {i : ℕ} (h : i < w.length) (x : ℚ) :
    (w.set i x).getD i 0 = x := by
  rw [List.getD_eq_getElem?_getD, List.getElem?_set]
  simp [h]

theorem getD_set_ne {w : List ℚ} {i j : ℕ} (h : i ≠ j) (x : ℚ) :
    (w.set i x).getD j 0 = w.getD j 0 := by
  rw [List.getD_eq_getElem?_getD, List.getElem?_set, List.getD_eq_getElem?_getD]
  simp [h]

theorem getD_mem_of_lt {w : List ℚ} {i : ℕ} (h : i < w.length) :
    w.getD i 0 ∈ w := by
  rw [List.getD_eq_getElem w 0 h]
  exact List.getElem_mem h

theorem getD_map_lt (f : ℕ → ℚ) {l : List ℕ} {j : ℕ} (h : j < l.length) :
    (l.map f).getD j 0 = f (l.getD j 0) := by
  have hm : j < (l.map f).length := by simpa using h
  rw [List.getD_eq_getElem _ _ hm, List.getD_eq_getElem _ _ h, List.getElem_map]

theorem natGetD_mem_of_lt {w : List ℕ} {i : ℕ} (h : i < w.length) :
    w.getD i 0 ∈ w := by
  rw [List.getD_eq_getElem w 0 h]
  exact List.getElem_mem h

/-! ### Supporting lemmas: `zeroIds` -/

theorem zeroIds_length (ids : List ℕ) : ∀ w : List ℚ,
    (zeroIds w ids).length = w.length := by
  induction ids with
  | nil => intro w; rfl
  | cons a rest ih =>
    intro w
    show (zeroIds (w.set a 0) rest).length = w.length
    rw [ih, List.length_set]

theorem zeroIds_nonneg (ids : List ℕ) : ∀ w : List ℚ,
    (∀ x ∈ w, 0 ≤ x) → ∀ x ∈ zeroIds w ids, 0 ≤ x := by
  induction ids with
  | nil => intro w h; exact h
  | cons a rest ih =>
    intro w h
    refine ih (w.set a 0) ?_
    intro x hx
    rcases List.mem_or_eq_of_mem_set hx with hx' | hx'
    · exact h x hx'
    · simp [hx']

theorem zeroIds_getD_of_not_mem (ids : List ℕ) : ∀ (w : List ℚ) (i : ℕ),
    i ∉ ids → (zeroIds w ids).getD i 0 = w.getD i 0 := by
  induction ids with
  | nil => intro w i _; rfl
  | cons a rest ih =>
    intro w i hi
    have hia : a ≠ i := fun h => hi (h ▸ List.mem_cons_self a rest)
    have hir : i ∉ rest := fun h => hi (List.mem_cons_of_mem a h)
    show (zeroIds (w.set a 0) rest).getD i 0 = w.getD i 0
    rw [ih (w.set a 0) i hir, getD_set_ne hia]

theorem zeroIds_getD_of_mem (ids : List ℕ) : ∀ (w : List ℚ) (i : ℕ),
    i ∈ ids → i < w.length → (zeroIds w ids).getD i 0 = 0 := by
  induction ids with
  | nil => intro w i hi _; exact absurd hi (List.not_mem_nil i)
  | cons a rest ih =>
    intro w i hi hlt
    show (zeroIds (w.set a 0) rest).getD i 0 = 0
    by_cases hir : i ∈ rest
    · exact ih (w.set a 0) i hir (by rw [List.length_set]; exact hlt)
    · have hia : i = a := by
        rcases List.mem_cons.mp hi with h | h
        · exact h
        · exact absurd h hir
      rw [zeroIds_getD_of_not_mem rest (w.set a 0) i hir, hia]
      exact getD_set_self (hia ▸ hlt) 0

/-! ### Supporting lemmas: `cumPick`, `posCount`, `drawLoop` -/

theorem cumPick_spec : ∀ (l : List ℚ) (t : ℚ), 0 ≤ t → t < l.sum →
    ∃ j, cumPick l t = some j ∧ j < l.length ∧ 0 < l.getD j 0 := by
  intro l
  induction l with
  | nil => intro t h0 h1; simp at h1; exact absurd (h0.trans_lt h1) (by simp)
  | cons w ws ih =>
    intro t h0 h1
    by_cases hw : t < w
    · exact ⟨0, by simp [cumPick, hw], by simp, h0.trans_lt hw⟩
    · push_neg at hw
      have hsum : t - w < ws.sum := by
        have : (w :: ws).sum = w + ws.sum := by simp
        linarith [h1, this ▸ h1]
      obtain ⟨j, hj, hjl, hjp⟩ := ih (t - w) (by linarith) hsum
      refine ⟨j + 1, ?_, by simpa using Nat.succ_lt_succ hjl, by simpa using hjp⟩
      simp [cumPick, not_lt.mpr hw, hj]

theorem posCount_set_zero : ∀ (w : List ℚ) (j : ℕ), j < w.length →
    0 < w.getD j 0 → posCount (w.set j 0) + 1 = posCount w := by
  intro w
  induction w with
  | nil => intro j h; exact absurd h (by simp)
  | cons a l ih =>
    intro j hj hpos
    cases j with
    | zero =>
      have ha : 0 < a := by simpa using hpos
      simp [posCount, List.countP_cons, ha]
    | succ j =>
      have hj' : j < l.length := by simpa using hj
      have hpos' : 0 < l.getD j 0 := by simpa using hpos
      have ihe := ih j hj' hpos'
      have hset : (a :: l).set (j + 1) 0 = a :: l.set j 0 := rfl
      rw [hset]
      simp only [posCount, List.countP_cons] at ihe ⊢
      omega

theorem sum_pos_of_posCount : ∀ w : List ℚ, (∀ x ∈ w, 0 ≤ x) →
    0 < posCount w → 0 < w.sum := by
  intro w
  induction w with
  | nil => intro _ h; simp [posCount] at h
  | cons a l ih =>
    intro hnn h
    have hl : ∀ x ∈ l, 0 ≤ x := fun x hx => hnn x (List.mem_cons_of_mem a hx)
    have ha : 0 ≤ a := hnn a (List.mem_cons_self a l)
    rw [List.sum_cons]
    by_cases hap : 0 < a
    · have : 0 ≤ l.sum := List.sum_nonneg hl
      linarith
    · have : 0 < posCount l := by
        simp only [posCount, List.countP_cons] at h
        simpa [posCount, hap] using h
      have := ih hl this
      linarith

theorem drawLoop_spec (s : ℕ → ℚ) : ∀ (m c : ℕ) (w : List ℚ),
    (∀ x ∈ w, 0 ≤ x) → m ≤ posCount w →
    (drawLoop s c m w).length = m ∧ (drawLoop s c m w).Nodup ∧
      ∀ j ∈ drawLoop s c m w, j < w.length ∧ 0 < w.getD j 0 := by
  intro m
  induction m with
  | zero => intro c w _ _; simp [drawLoop]
  | succ m ih =>
    intro c w hnn hm
    have hpc : 0 < posCount w := lt_of_lt_of_le (Nat.succ_pos m) hm
    have hsum : 0 < w.sum := sum_pos_of_posCount w hnn hpc
    have htgt0 : 0 ≤ unif s c * w.sum :=
      mul_nonneg (Int.fract_nonneg (s c)) hsum.le
    have htgt1 : unif s c * w.sum < w.sum := by
      have := Int.fract_lt_one (s c)
      calc unif s c * w.sum < 1 * w.sum :=
            mul_lt_mul_of_pos_right this hsum
        _ = w.sum := one_mul _
    obtain ⟨j, hj, hjl, hjp⟩ := cumPick_spec w (unif s c * w.sum) htgt0 htgt1
    have hw' : ∀ x ∈ w.set j 0, 0 ≤ x := by
      intro x hx
      rcases List.mem_or_eq_of_mem_set hx with hx' | hx'
      · exact hnn x hx'
      · simp [hx']
    have hm' : m ≤ posCount (w.set j 0) := by
      have := posCount_set_zero w j hjl hjp
      omega
    obtain ⟨ihl, ihnd, ihmem⟩ := ih (c + 1) (w.set j 0) hw' hm'
    have heq : drawLoop s c (m + 1) w = j :: drawLoop s (c + 1) m (w.set j 0) := by
      simp [drawLoop, hj]
    rw [heq]
    refine ⟨by simp [ihl], ?_, ?_⟩
    · refine List.nodup_cons.mpr ⟨?_, ihnd⟩
      intro hjin
      have := (ihmem j hjin).2
      rw [getD_set_self hjl] at this
      exact absurd this (lt_irrefl 0)
    · intro k hk
      rcases List.mem_cons.mp hk with hk' | hk'
      · exact hk' ▸ ⟨hjl, hjp⟩
      · obtain ⟨hkl, hkp⟩ := ihmem k hk'
        have hkj : j ≠ k := by
          intro h
          rw [← h, getD_set_self hjl] at hkp
          exact absurd hkp (lt_irrefl 0)
        rw [List.length_set] at hkl
        rw [getD_set_ne hkj] at hkp
        exact ⟨hkl, hkp⟩

/-! ### Supporting lemmas: the candidate pool -/

theorem argsortAsc_perm (w : List ℚ) :
    (argsortAsc w).Perm (List.range w.length) :=
  List.perm_insertionSort _ _

theorem argsortAsc_nodup (w : List ℚ) : (argsortAsc w).Nodup :=
  (argsortAsc_perm w).symm.nodup (List.nodup_range w.length)

theorem mem_argsortAsc {w : List ℚ} {i : ℕ} :
    i ∈ argsortAsc w ↔ i < w.length := by
  rw [(argsortAsc_perm w).mem_iff, List.mem_range]

theorem argsortAsc_sorted (w : List ℚ) :
    List.Sorted (fun i j => w.getD i 0 ≤ w.getD j 0) (argsortAsc w) := by
  haveI : IsTotal ℕ (fun i j => w.getD i 0 ≤ w.getD j 0) :=
    ⟨fun _ _ => le_total _ _⟩
  haveI : IsTrans ℕ (fun i j => w.getD i 0 ≤ w.getD j 0) :=
    ⟨fun _ _ _ h1 h2 => le_trans h1 h2⟩
  exact List.sorted_insertionSort _ _

theorem negChoiceZeroed_length (f : List ℚ) (P : List ℕ) :
    (negChoiceZeroed f P).length = f.length :=
  zeroIds_length _ _

theorem negChoiceZeroed_getD_of_not_mem {f : List ℚ} {P : List ℕ} {i : ℕ}
    (h : i ∉ P) : (negChoiceZeroed f P).getD i 0 = f.getD i 0 :=
  zeroIds_getD_of_not_mem _ _ _ (fun hm => h (List.mem_dedup.mp hm))

theorem negChoiceZeroed_getD_of_mem {f : List ℚ} {P : List ℕ} {i : ℕ}
    (h : i ∈ P) (hlt : i < f.length) : (negChoiceZeroed f P).getD i 0 = 0 :=
  zeroIds_getD_of_mem _ _ _ (List.mem_dedup.mpr h) hlt

theorem negChoiceZeroed_nonneg {f : List ℚ} {P : List ℕ}
    (h : ∀ x ∈ f, 0 ≤ x) : ∀ x ∈ negChoiceZeroed f P, 0 ≤ x :=
  zeroIds_nonneg _ _ h

theorem negChoicePool_sublist (f : List ℚ) (P : List ℕ) (fm : ℚ) :
    (negChoicePool f P fm).Sublist (argsortAsc (negChoiceZeroed f P)) := by
  unfold negChoicePool
  by_cases h : freqMarginNum f.length fm = 0
  · simp [h]
  · simp [h, List.drop_sublist]

theorem negChoicePool_nodup (f : List ℚ) (P : List ℕ) (fm : ℚ) :
    (negChoicePool f P fm).Nodup :=
  (negChoicePool_sublist f P fm).nodup (argsortAsc_nodup _)

theorem mem_negChoicePool_lt {f : List ℚ} {P : List ℕ} {fm : ℚ} {i : ℕ}
    (h : i ∈ negChoicePool f P fm) : i < f.length := by
  have h2 := List.Sublist.mem h (negChoicePool_sublist f P fm)
  have h3 := mem_argsortAsc.mp h2
  rwa [negChoiceZeroed_length] at h3

/-! ### `neg_choice`: feasible and infeasible branches -/

theorem neg_choice_feasible (f : List ℚ) (P : List ℕ) (fm : ℚ) (nps : ℕ)
    (s : ℕ → ℚ) (c : ℕ)
    (hfreq : ∀ x ∈ f, 1 ≤ x)
    (hpool : negChoiceSampleCount P nps ≤
      ((negChoicePool f P fm).filter (fun i => decide (i ∉ P))).length) :
    (neg_choice f P fm nps s c).length = negChoiceSampleCount P nps ∧
      (neg_choice f P fm nps s c).Nodup ∧
      ∀ i ∈ neg_choice f P fm nps s c, i ∉ P := by
  have hwn : ∀ x ∈ negChoiceZeroed f P, 0 ≤ x :=
    negChoiceZeroed_nonneg (fun x hx => le_trans zero_le_one (hfreq x hx))
  have hkn : ∀ x ∈ negChoiceKept f P fm, 0 ≤ x := by
    intro x hx
    obtain ⟨j, hj, rfl⟩ := List.mem_map.mp hx
    have hjl : j < (negChoiceZeroed f P).length := by
      rw [negChoiceZeroed_length]; exact mem_negChoicePool_lt hj
    exact hwn _ (getD_mem_of_lt hjl)
  have hposP : ∀ i ∈ negChoicePool f P fm, decide (i ∉ P) = true →
      decide (0 < (negChoiceZeroed f P).getD i 0) = true := by
    intro i hi hdP
    have hiP : i ∉ P := of_decide_eq_true hdP
    have hil : i < f.length := mem_negChoicePool_lt hi
    have h1 : (1 : ℚ) ≤ f.getD i 0 := hfreq _ (getD_mem_of_lt hil)
    rw [negChoiceZeroed_getD_of_not_mem hiP]
    exact decide_eq_true_eq.mpr (lt_of_lt_of_le zero_lt_one h1)
  have hcount : negChoiceSampleCount P nps ≤ posCount (negChoiceKept f P fm) := by
    have e1 : posCount (negChoiceKept f P fm) =
        (negChoicePool f P fm).countP
          (fun i => decide (0 < (negChoiceZeroed f P).getD i 0)) := by
      unfold posCount negChoiceKept
      rw [List.countP_map]
      rfl
    have e2 : ((negChoicePool f P fm).filter (fun i => decide (i ∉ P))).length =
        (negChoicePool f P fm).countP (fun i => decide (i ∉ P)) :=
      (List.countP_eq_length_filter _ _).symm
    rw [e1]
    rw [e2] at hpool
    exact le_trans hpool (List.countP_mono_left hposP)
  have hnp : npChoice (negChoicePool f P fm) (negChoiceKept f P fm)
      (negChoiceSampleCount P nps) s c =
      some ((drawLoop s c (negChoiceSampleCount P nps) (negChoiceKept f P fm)).map
        (fun j => (negChoicePool f P fm).getD j 0)) := by
    simp [npChoice, hcount]
  have hne : neg_choice f P fm nps s c =
      (drawLoop s c (negChoiceSampleCount P nps) (negChoiceKept f P fm)).map
        (fun j => (negChoicePool f P fm).getD j 0) := by
    simp only [neg_choice]
    rw [hnp]
  obtain ⟨hlen, hnd, hmem⟩ := drawLoop_spec s (negChoiceSampleCount P nps) c
    (negChoiceKept f P fm) hkn hcount
  have hkplen : (negChoiceKept f P fm).length = (negChoicePool f P fm).length :=
    List.length_map _ _
  refine ⟨by rw [hne]; simpa using hlen, ?_, ?_⟩
  · rw [hne]
    refine List.Nodup.map_on ?_ hnd
    intro a ha b hb hab
    have hal : a < (negChoicePool f P fm).length := hkplen ▸ (hmem a ha).1
    have hbl : b < (negChoicePool f P fm).length := hkplen ▸ (hmem b hb).1
    rw [List.getD_eq_getElem _ _ hal, List.getD_eq_getElem _ _ hbl] at hab
    exact ((negChoicePool_nodup f P fm).getElem_inj_iff).mp hab
  · intro i hi
    rw [hne] at hi
    obtain ⟨j, hj, rfl⟩ := List.mem_map.mp hi
    obtain ⟨hjl, hjp⟩ := hmem j hj
    have hjpool : j < (negChoicePool f P fm).length := hkplen ▸ hjl
    have hkval : (negChoiceKept f P fm).getD j 0 =
        (negChoiceZeroed f P).getD ((negChoicePool f P fm).getD j 0) 0 :=
      getD_map_lt _ hjpool
    rw [hkval] at hjp
    intro hiP
    have hmempool : (negChoicePool f P fm).getD j 0 ∈ negChoicePool f P fm :=
      natGetD_mem_of_lt hjpool
    have hlt : (negChoicePool f P fm).getD j 0 < f.length :=
      mem_negChoicePool_lt hmempool
    rw [negChoiceZeroed_getD_of_mem hiP hlt] at hjp
    exact absurd hjp (lt_irrefl 0)

theorem neg_choice_infeasible (f : List ℚ) (P : List ℕ) (fm : ℚ) (nps : ℕ)
    (s : ℕ → ℚ) (c : ℕ)
    (h : posCount (negChoiceKept f P fm) < negChoiceSampleCount P nps) :
    neg_choice f P fm nps s c =
      List.replicate (negChoiceSampleCount P nps) 0 := by
  simp only [neg_choice, npChoice, if_neg (not_le.mpr h)]

/-! ### Pool size and top-by-weight characterisation -/

theorem freqMarginNum_le (n : ℕ) {fm : ℚ} (h : fm ≤ 1) :
    freqMarginNum n fm ≤ n := by
  unfold freqMarginNum
  have h1 : (n : ℚ) * fm ≤ (n : ℚ) := by
    calc (n : ℚ) * fm ≤ (n : ℚ) * 1 :=
          mul_le_mul_of_nonneg_left h (by positivity)
      _ = (n : ℚ) := mul_one _
  have h2 : ⌊(n : ℚ) * fm⌋ ≤ (n : ℤ) := by
    have := Int.floor_le_floor h1
    simpa using this
  omega

theorem argsortAsc_length (w : List ℚ) : (argsortAsc w).length = w.length := by
  unfold argsortAsc
  rw [List.length_insertionSort, List.length_range]

theorem negChoicePool_length (f : List ℚ) (P : List ℕ) {fm : ℚ}
    (hfm : fm ≤ 1) :
    (negChoicePool f P fm).length =
      if freqMarginNum f.length fm = 0 then f.length
      else freqMarginNum f.length fm := by
  have hsl : (argsortAsc (negChoiceZeroed f P)).length = f.length := by
    rw [argsortAsc_length, negChoiceZeroed_length]
  unfold negChoicePool
  by_cases h : freqMarginNum f.length fm = 0
  · simp [h, hsl]
  · simp only [h, if_neg h, ite_false]
    rw [List.length_drop, hsl]
    have := freqMarginNum_le f.length hfm
    omega

theorem negChoicePool_top (f : List ℚ) (P : List ℕ) (fm : ℚ) :
    ∀ i ∈ negChoicePool f P fm, ∀ j < f.length, j ∉ negChoicePool f P fm →
      (negChoiceZeroed f P).getD j 0 ≤ (negChoiceZeroed f P).getD i 0 := by
  intro i hi j hj hjn
  have hjmem : j ∈ argsortAsc (negChoiceZeroed f P) := by
    rw [mem_argsortAsc, negChoiceZeroed_length]
    exact hj
  unfold negChoicePool at hi hjn
  by_cases h : freqMarginNum f.length fm = 0
  · simp only [h, ite_true, if_pos] at hjn
    simp only [h, ite_true, if_pos] at hi
    exact absurd hjmem hjn
  · simp only [h, ite_false, if_neg] at hi hjn
    set sorted := argsortAsc (negChoiceZeroed f P) with hs
    set kcut := sorted.length - freqMarginNum f.length fm with hk
    have hsplit : List.take kcut sorted ++ List.drop kcut sorted = sorted :=
      List.take_append_drop kcut sorted
    have hpw : List.Pairwise
        (fun a b => (negChoiceZeroed f P).getD a 0 ≤ (negChoiceZeroed f P).getD b 0)
        (List.take kcut sorted ++ List.drop kcut sorted) := by
      rw [hsplit]
      exact argsortAsc_sorted (negChoiceZeroed f P)
    have hcross := (List.pairwise_append.mp hpw).2.2
    have hjtake : j ∈ List.take kcut sorted := by
      rw [← hsplit] at hjmem
      rcases List.mem_append.mp hjmem with h1 | h1
      · exact h1
      · exact absurd h1 hjn
    exact hcross j hjtake i hi

/-! ### Claim theorems -/

/-- C2: for every frequency array (per the data model, every entry is at
least 1), positive set `P`, and `neg_per_sample = n`, if the candidate pool
left after the `freq_margin` cutoff holds at least `n * |distinct P|` items
outside `P`, then `neg_choice` returns exactly `n * |distinct P|` item ids,
none in `P`, with no duplicates (a draw without replacement). -/
theorem C2_sample_negatives_feasible (freq_dist : List ℚ)
    (pos_item_ids : List ℕ) (freq_margin : ℚ) (neg_per_sample : ℕ)
    (s : ℕ → ℚ) (c : ℕ)
    (hfreq : ∀ x ∈ freq_dist, 1 ≤ x)
    (hpool : neg_per_sample * pos_item_ids.dedup.length ≤
      ((negChoicePool freq_dist pos_item_ids freq_margin).filter
        (fun i => decide (i ∉ pos_item_ids))).length) :
    (neg_choice freq_dist pos_item_ids freq_margin neg_per_sample s c).length =
        neg_per_sample * pos_item_ids.dedup.length ∧
      (neg_choice freq_dist pos_item_ids freq_margin neg_per_sample s c).Nodup ∧
      ∀ i ∈ neg_choice freq_dist pos_item_ids freq_margin neg_per_sample s c,
        i ∉ pos_item_ids :=
  neg_choice_feasible freq_dist pos_item_ids freq_margin neg_per_sample s c
    hfreq hpool

/-- Witness for C2 at a concrete input: frequency array `[1,1,1]`,
positives `{2}`, `freq_margin = 1`, one negative per positive. -/
theorem C2_sample_negatives_feasible_witness :
    ((∀ x ∈ ([1, 1, 1] : List ℚ), 1 ≤ x) ∧
      1 * ([2] : List ℕ).dedup.length ≤
        ((negChoicePool [1, 1, 1] [2] 1).filter
          (fun i => decide (i ∉ ([2] : List ℕ)))).length) ∧
    ((neg_choice [1, 1, 1] [2] 1 1 (fun _ => 0) 0).length =
        1 * ([2] : List ℕ).dedup.length ∧
      (neg_choice [1, 1, 1] [2] 1 1 (fun _ => 0) 0).Nodup ∧
      ∀ i ∈ neg_choice [1, 1, 1] [2] 1 1 (fun _ => 0) 0,
        i ∉ ([2] : List ℕ)) :=
  ⟨⟨by decide, by decide⟩,
    C2_sample_negatives_feasible [1, 1, 1] [2] 1 1 (fun _ => 0) 0
      (by decide) (by decide)⟩

/-- C4: whenever the requested count exceeds the number of candidates with
positive probability (the exact condition of numpy's `ValueError` on an
infeasible draw without replacement), `neg_choice` returns — instead of
raising — the sentinel id `0` repeated `neg_per_sample * |distinct P|`
times. -/
theorem C4_infeasible_fallback (freq_dist : List ℚ) (pos_item_ids : List ℕ)
    (freq_margin : ℚ) (neg_per_sample : ℕ) (s : ℕ → ℚ) (c : ℕ)
    (h : posCount (negChoiceKept freq_dist pos_item_ids freq_margin) <
      neg_per_sample * pos_item_ids.dedup.length) :
    neg_choice freq_dist pos_item_ids freq_margin neg_per_sample s c =
        List.replicate (neg_per_sample * pos_item_ids.dedup.length) 0 ∧
      (neg_choice freq_dist pos_item_ids freq_margin neg_per_sample s c).length =
        neg_per_sample * pos_item_ids.dedup.length := by
  have he := neg_choice_infeasible freq_dist pos_item_ids freq_margin
    neg_per_sample s c h
  refine ⟨he, ?_⟩
  rw [he, List.length_replicate]
  rfl

/-- Witness for C4 at a concrete input: frequency array `[1,1,1]`,
positives `{1}`, five negatives requested per positive but only two
candidates available. -/
theorem C4_infeasible_fallback_witness :
    (posCount (negChoiceKept [1, 1, 1] [1] 1) <
      5 * ([1] : List ℕ).dedup.length) ∧
    (neg_choice [1, 1, 1] [1] 1 5 (fun _ => 0) 0 =
        List.replicate (5 * ([1] : List ℕ).dedup.length) 0 ∧
      (neg_choice [1, 1, 1] [1] 1 5 (fun _ => 0) 0).length =
        5 * ([1] : List ℕ).dedup.length) :=
  ⟨by decide,
    C4_infeasible_fallback [1, 1, 1] [1] 1 5 (fun _ => 0) 0 (by decide)⟩

/-- C10: on an infeasible draw the degraded fallback emits the sentinel id
`0` even though item `0` is one of the user's positives, and with
duplicates: neither the exclusion guarantee nor the no-duplicates guarantee
extends to the degraded output. -/
theorem C10_degraded_output_violates_exclusion :
    neg_choice [1, 1] [0] 1 3 (fun _ => 0) 0 = [0, 0, 0] ∧
      (0 : ℕ) ∈ ([0] : List ℕ) ∧
      ¬ (neg_choice [1, 1] [0] 1 3 (fun _ => 0) 0).Nodup := by
  decide

/-- C3 counterexample: with frequency array `[1,2,3,4]` (4 items),
positives `{0}` and `freq_margin = 3/8`, the code keeps
`int(4 * 3/8) = 1` candidate, not the `ceil(4 * 3/8) = 2` top items the
claim states. -/
theorem C3_pool_ceil_counterexample :
    (negChoicePool [1, 2, 3, 4] [0] (3 / 8)).length = 1 ∧
      (⌈(4 : ℚ) * (3 / 8)⌉ : ℤ) = 2 := by
  decide

/-- C3 (amended): the candidate pool consists of the top
`int(freq_margin * items_size)` (truncation, not ceiling) items by weight
after the excluded ids are zeroed — except that when that truncation is `0`
the `[-0:]` slice keeps the whole array, so the pool is all `items_size`
items.  The pool is never empty, and every element is a valid item id,
listed without duplicates, with every non-pool id carrying weight at most
that of every pool id. -/
theorem C3_pool_amended (freq_dist : List ℚ) (pos_item_ids : List ℕ)
    (fm : ℚ) (hfm : fm ≤ 1) (hlen : 1 ≤ freq_dist.length) :
    (negChoicePool freq_dist pos_item_ids fm).length =
        (if freqMarginNum freq_dist.length fm = 0 then freq_dist.length
          else freqMarginNum freq_dist.length fm) ∧
      negChoicePool freq_dist pos_item_ids fm ≠ [] ∧
      (negChoicePool freq_dist pos_item_ids fm).Nodup ∧
      (∀ i ∈ negChoicePool freq_dist pos_item_ids fm, i < freq_dist.length) ∧
      ∀ i ∈ negChoicePool freq_dist pos_item_ids fm, ∀ j < freq_dist.length,
        j ∉ negChoicePool freq_dist pos_item_ids fm →
          (negChoiceZeroed freq_dist pos_item_ids).getD j 0 ≤
            (negChoiceZeroed freq_dist pos_item_ids).getD i 0 := by
  have hl := negChoicePool_length freq_dist pos_item_ids hfm
  refine ⟨hl, ?_, negChoicePool_nodup _ _ _,
    fun i hi => mem_negChoicePool_lt hi, negChoicePool_top _ _ _⟩
  have hpos : 0 < (negChoicePool freq_dist pos_item_ids fm).length := by
    rw [hl]
    by_cases h : freqMarginNum freq_dist.length fm = 0
    · simpa [h] using hlen
    · simpa [h] using Nat.pos_of_ne_zero h
  exact List.ne_nil_of_length_pos hpos

/-- Witness for the amended C3 at the counterexample input. -/
theorem C3_pool_amended_witness :
    ((3 / 8 : ℚ) ≤ 1 ∧ 1 ≤ ([1, 2, 3, 4] : List ℚ).length) ∧
    ((negChoicePool [1, 2, 3, 4] [0] (3 / 8)).length =
        (if freqMarginNum ([1, 2, 3, 4] : List ℚ).length (3 / 8) = 0 then
          ([1, 2, 3, 4] : List ℚ).length
        else freqMarginNum ([1, 2, 3, 4] : List ℚ).length (3 / 8)) ∧
      negChoicePool [1, 2, 3, 4] [0] (3 / 8) ≠ [] ∧
      (negChoicePool [1, 2, 3, 4] [0] (3 / 8)).Nodup ∧
      (∀ i ∈ negChoicePool [1, 2, 3, 4] [0] (3 / 8),
        i < ([1, 2, 3, 4] : List ℚ).length) ∧
      ∀ i ∈ negChoicePool [1, 2, 3, 4] [0] (3 / 8),
        ∀ j < ([1, 2, 3, 4] : List ℚ).length,
          j ∉ negChoicePool [1, 2, 3, 4] [0] (3 / 8) →
            (negChoiceZeroed [1, 2, 3, 4] [0]).getD j 0 ≤
              (negChoiceZeroed [1, 2, 3, 4] [0]).getD i 0) :=
  ⟨⟨by decide, by decide⟩,
    C3_pool_amended [1, 2, 3, 4] [0] (3 / 8) (by decide) (by decide)⟩

/-! ### `make_pos_distributions` -/

theorem bumpFreq_length (fd : List ℚ) (i : ℕ) :
    (bumpFreq fd i).length = fd.length :=
  List.length_set _ _ _

theorem bumpFreq_one_le {fd : List ℚ} (h : ∀ x ∈ fd, 1 ≤ x) {i : ℕ}
    (hi : i < fd.length) : ∀ x ∈ bumpFreq fd i, 1 ≤ x := by
  intro x hx
  rcases List.mem_or_eq_of_mem_set hx with hx1 | hx1
  · exact h x hx1
  · have := h _ (getD_mem_of_lt hi)
    rw [hx1]
    linarith

theorem bumpFreq_sum : ∀ (fd : List ℚ) (i : ℕ), i < fd.length →
    (bumpFreq fd i).sum = fd.sum + 1
  | [], i, h => absurd h (by simp)
  | a :: l, 0, _ => by
    show ((a :: l).set 0 ((a :: l).getD 0 0 + 1)).sum = (a :: l).sum + 1
    simp
    ring
  | a :: l, i + 1, h => by
    have e : bumpFreq (a :: l) (i + 1) = a :: bumpFreq l i := by
      unfold bumpFreq
      rw [List.getD_cons_succ]
      rfl
    rw [e, List.sum_cons, bumpFreq_sum l i (by simpa using h), List.sum_cons]
    ring

theorem posStep_foldl_freq : ∀ (l : List (ℕ × ℕ)) (fd : List ℚ)
    (pi : List (ℕ × List ℕ)),
    (∀ ui ∈ l, ui.2 < fd.length) → (∀ x ∈ fd, 1 ≤ x) →
    (∀ x ∈ (l.foldl posStep (fd, pi)).1, 1 ≤ x) ∧
      (l.foldl posStep (fd, pi)).1.length = fd.length ∧
      (l.foldl posStep (fd, pi)).1.sum = fd.sum + l.length := by
  intro l
  induction l with
  | nil => intro fd pi _ h1; exact ⟨h1, rfl, by simp⟩
  | cons a rest ih =>
    intro fd pi hv h1
    have ha : a.2 < fd.length := hv a (List.mem_cons_self a rest)
    have hps : posStep (fd, pi) a = (bumpFreq fd a.2, addPos pi a.1 a.2) := rfl
    rw [List.foldl_cons, hps]
    obtain ⟨p1, p2, p3⟩ := ih (bumpFreq fd a.2) (addPos pi a.1 a.2)
      (fun ui hui => by
        rw [bumpFreq_length]
        exact hv ui (List.mem_cons_of_mem a hui))
      (bumpFreq_one_le h1 ha)
    refine ⟨p1, ?_, ?_⟩
    · rw [p2, bumpFreq_length]
    · rw [p3, bumpFreq_sum fd a.2 ha]
      have : ((a :: rest).length : ℚ) = (rest.length : ℚ) + 1 := by
        push_cast [List.length_cons]
        ring
      rw [this]
      ring

theorem dictGet_addPos (u v i : ℕ) : ∀ pi : List (ℕ × List ℕ),
    dictGet u (addPos pi v i) =
      if v = u then dictGet u pi ++ [i] else dictGet u pi := by
  intro pi
  induction pi with
  | nil => by_cases h : v = u <;> simp [addPos, dictGet, h]
  | cons hd rest ih =>
    obtain ⟨w, l⟩ := hd
    by_cases hwv : w = v
    · by_cases hvu : v = u <;> simp [addPos, dictGet, hwv, hvu]
    · by_cases hwu : w = u
      · have huv2 : ¬ u = v := fun h => hwv (hwu.trans h)
        have hvu : ¬ v = u := fun h => huv2 h.symm
        simp [addPos, dictGet, hwu, huv2, hvu]
      · by_cases hvu : v = u
        · subst hvu
          simp [addPos, dictGet, hwv, hwu, ih]
        · simp [addPos, dictGet, hwv, hwu, hvu, ih]

theorem dictGet_foldl (u : ℕ) : ∀ (l : List (ℕ × ℕ))
    (st : List ℚ × List (ℕ × List ℕ)),
    dictGet u (l.foldl posStep st).2 =
      dictGet u st.2 ++ (l.filter (fun ui => decide (ui.1 = u))).map Prod.snd := by
  intro l
  induction l with
  | nil => intro st; simp
  | cons a rest ih =>
    intro st
    rw [List.foldl_cons, ih (posStep st a)]
    have h2 : (posStep st a).2 = addPos st.2 a.1 a.2 := rfl
    rw [h2, dictGet_addPos]
    by_cases h : a.1 = u
    · simp [List.filter_cons, h, List.append_assoc]
    · simp [List.filter_cons, h]

/-- C5: `make_pos_distributions` returns a frequency array of length
`items_size` with every entry at least `1` and total `items_size` plus the
number of interactions, together with the map sending each user to that
user's item ids in interaction order (duplicates preserved); and on the
spec's example `[(0,1),(0,2),(1,2)]` with 4 items it yields `[1,2,3,1]`
and `{0 ↦ [1,2], 1 ↦ [2]}`. -/
theorem C5_make_pos_distributions (items_size : ℕ)
    (interactions : List (ℕ × ℕ))
    (hvalid : ∀ ui ∈ interactions, ui.2 < items_size) :
    (∀ x ∈ (make_pos_distributions items_size interactions).1, 1 ≤ x) ∧
      (make_pos_distributions items_size interactions).1.length = items_size ∧
      (make_pos_distributions items_size interactions).1.sum =
        (items_size : ℚ) + interactions.length ∧
      (∀ u : ℕ, dictGet u (make_pos_distributions items_size interactions).2 =
        (interactions.filter (fun ui => decide (ui.1 = u))).map Prod.snd) ∧
      make_pos_distributions 4 [(0, 1), (0, 2), (1, 2)] =
        ([1, 2, 3, 1], [(0, [1, 2]), (1, [2])]) := by
  have hrep1 : ∀ x ∈ List.replicate items_size (1 : ℚ), 1 ≤ x := by
    intro x hx
    rw [List.eq_of_mem_replicate hx]
  have hlen : ∀ ui ∈ interactions,
      ui.2 < (List.replicate items_size (1 : ℚ)).length := by
    simpa using hvalid
  obtain ⟨p1, p2, p3⟩ := posStep_foldl_freq interactions
    (List.replicate items_size 1) [] hlen hrep1
  refine ⟨p1, ?_, ?_, ?_, by decide⟩
  · rw [show make_pos_distributions items_size interactions =
      interactions.foldl posStep (List.replicate items_size 1, []) from rfl,
      p2, List.length_replicate]
  · rw [show make_pos_distributions items_size interactions =
      interactions.foldl posStep (List.replicate items_size 1, []) from rfl,
      p3, List.sum_replicate]
    simp [nsmul_eq_mul]
  · intro u
    rw [show make_pos_distributions items_size interactions =
      interactions.foldl posStep (List.replicate items_size 1, []) from rfl,
      dictGet_foldl]
    simp [dictGet]

/-- Witness for C5 at the spec's example input. -/
theorem C5_make_pos_distributions_witness :
    (∀ ui ∈ ([(0, 1), (0, 2), (1, 2)] : List (ℕ × ℕ)), ui.2 < 4) ∧
    ((∀ x ∈ (make_pos_distributions 4 [(0, 1), (0, 2), (1, 2)]).1, 1 ≤ x) ∧
      (make_pos_distributions 4 [(0, 1), (0, 2), (1, 2)]).1.length = 4 ∧
      (make_pos_distributions 4 [(0, 1), (0, 2), (1, 2)]).1.sum =
        ((4 : ℕ) : ℚ) + ([(0, 1), (0, 2), (1, 2)] : List (ℕ × ℕ)).length ∧
      (∀ u : ℕ, dictGet u (make_pos_distributions 4 [(0, 1), (0, 2), (1, 2)]).2 =
        (([(0, 1), (0, 2), (1, 2)] : List (ℕ × ℕ)).filter
          (fun ui => decide (ui.1 = u))).map Prod.snd) ∧
      make_pos_distributions 4 [(0, 1), (0, 2), (1, 2)] =
        ([1, 2, 3, 1], [(0, [1, 2]), (1, [2])])) :=
  ⟨by decide, C5_make_pos_distributions 4 [(0, 1), (0, 2), (1, 2)] (by decide)⟩

/-! ### `create_dataset` -/

theorem foldl_pairs_append (u : ℕ) : ∀ (zs : List (ℕ × ℕ))
    (acc : List (ℕ × ℕ × ℤ)),
    zs.foldl (fun ds2 pq => ds2 ++ [(u, pq.1, (1 : ℤ)), (u, pq.2, (-1 : ℤ))]) acc =
      acc ++ zs.flatMap (fun pq => [(u, pq.1, (1 : ℤ)), (u, pq.2, (-1 : ℤ))]) := by
  intro zs
  induction zs with
  | nil => intro acc; simp
  | cons p rest ih =>
    intro acc
    rw [List.foldl_cons, ih]
    simp

theorem create_dataset_foldl : ∀ (pni : List (ℕ × List ℕ × List ℕ))
    (acc : List (ℕ × ℕ × ℤ)),
    pni.foldl (fun ds t => (t.2.1.zip t.2.2).foldl
      (fun ds2 pq => ds2 ++ [(t.1, pq.1, (1 : ℤ)), (t.1, pq.2, (-1 : ℤ))]) ds) acc =
      acc ++ pni.flatMap (fun t => (t.2.1.zip t.2.2).flatMap
        (fun pq => [(t.1, pq.1, (1 : ℤ)), (t.1, pq.2, (-1 : ℤ))])) := by
  intro pni
  induction pni with
  | nil => intro acc; simp
  | cons t rest ih =>
    intro acc
    rw [List.foldl_cons, ih, foldl_pairs_append t.1]
    simp

theorem two_blocks_length (u : ℕ) : ∀ zs : List (ℕ × ℕ),
    (zs.flatMap (fun pq => [(u, pq.1, (1 : ℤ)), (u, pq.2, (-1 : ℤ))])).length =
      2 * zs.length := by
  intro zs
  induction zs with
  | nil => rfl
  | cons p rest ih =>
    simp only [List.flatMap_cons, List.length_append, ih, List.length_cons]
    simp
    omega

/-- C6: `create_dataset` emits, for each `(user, positives, negatives)`
triple in input order, one `+1` example per positive immediately followed
by one `-1` example per paired negative, pairing by `zip` (the overlapping
prefix only, no padding), hence exactly `2 * min |pos| |neg|` examples per
user. -/
theorem C6_create_dataset_zip :
    (∀ pni : List (ℕ × List ℕ × List ℕ),
      create_dataset pni = pni.flatMap (fun t => (t.2.1.zip t.2.2).flatMap
        (fun pq => [(t.1, pq.1, (1 : ℤ)), (t.1, pq.2, (-1 : ℤ))]))) ∧
    ∀ (u : ℕ) (pos neg : List ℕ),
      create_dataset [(u, pos, neg)] = (pos.zip neg).flatMap
          (fun pq => [(u, pq.1, (1 : ℤ)), (u, pq.2, (-1 : ℤ))]) ∧
        (create_dataset [(u, pos, neg)]).length =
          2 * min pos.length neg.length := by
  have hmain : ∀ pni : List (ℕ × List ℕ × List ℕ),
      create_dataset pni = pni.flatMap (fun t => (t.2.1.zip t.2.2).flatMap
        (fun pq => [(t.1, pq.1, (1 : ℤ)), (t.1, pq.2, (-1 : ℤ))])) := by
    intro pni
    unfold create_dataset
    rw [create_dataset_foldl]
    simp
  refine ⟨hmain, ?_⟩
  intro u pos neg
  have h1 : create_dataset [(u, pos, neg)] = (pos.zip neg).flatMap
      (fun pq => [(u, pq.1, (1 : ℤ)), (u, pq.2, (-1 : ℤ))]) := by
    rw [hmain]
    simp
  refine ⟨h1, ?_⟩
  rw [h1, two_blocks_length, List.length_zip]

/-! ### `split` and the global generator state -/

/-- C1: the negative draws of `split` come from the unseeded global numpy
generator, whose state advances across calls (the only seeded generator is
the fresh torch generator used for the 95/5 partition).  Two successive
`split` calls on identical inputs — threading that global state, here under
the sequential schedule most favourable to the claim — produce different
negative draws and hence different train/eval data. -/
theorem C1_split_not_idempotent :
    (split_run ⟨[(0, 2)], [(0, "a")], [(0, "x"), (1, "y"), (2, "z")]⟩ 1 1
        (fun k => (k : ℚ) / 2) 0).1 ≠
      (split_run ⟨[(0, 2)], [(0, "a")], [(0, "x"), (1, "y"), (2, "z")]⟩ 1 1
        (fun k => (k : ℚ) / 2)
        (split_run ⟨[(0, 2)], [(0, "a")], [(0, "x"), (1, "y"), (2, "z")]⟩ 1 1
          (fun k => (k : ℚ) / 2) 0).2).1 := by
  decide

/-! ### Top-k retrieval -/

theorem optionMapList_singleton (f : α → Option β) (a : α) :
    optionMapList f [a] = (f a).map (fun b => [b]) := by
  cases h : f a <;> simp [optionMapList, h]

theorem topRel_weak {scores : List ℚ} {i j : ℕ} (h : topRel scores i j) :
    scores.getD j 0 ≤ scores.getD i 0 := by
  rcases h with h | ⟨h, _⟩
  · exact le_of_lt h
  · exact le_of_eq h.symm

theorem topkIndices_spec (scores : List ℚ) (k : ℕ) (hk : k ≤ scores.length) :
    (topkIndices scores k).length = k ∧ (topkIndices scores k).Nodup ∧
      (∀ i ∈ topkIndices scores k, i < scores.length) ∧
      (topkIndices scores k).Pairwise
        (fun i j => scores.getD j 0 ≤ scores.getD i 0) := by
  have hperm : (List.insertionSort (topRel scores)
      (List.range scores.length)).Perm (List.range scores.length) :=
    List.perm_insertionSort _ _
  have hlen : (List.insertionSort (topRel scores)
      (List.range scores.length)).length = scores.length := by
    rw [hperm.length_eq, List.length_range]
  have hnd : (List.insertionSort (topRel scores)
      (List.range scores.length)).Nodup :=
    hperm.symm.nodup (List.nodup_range _)
  have hsorted : List.Sorted (topRel scores)
      (List.insertionSort (topRel scores) (List.range scores.length)) :=
    List.sorted_insertionSort _ _
  refine ⟨?_, ?_, ?_, ?_⟩
  · unfold topkIndices
    rw [List.length_take, hlen]
    omega
  · exact (List.take_sublist _ _).nodup hnd
  · intro i hi
    have h1 := List.Sublist.mem hi (List.take_sublist _ _)
    have h2 := hperm.mem_iff.mp h1
    rwa [List.mem_range] at h2
  · exact ((hsorted.sublist (List.take_sublist _ _)).imp topRel_weak)

/-- C7: for a user id in `[0, users_size)` and `k ≤ items_size`,
`recommend_topk_by_user_ids([u], k)` succeeds with exactly `k` distinct
item ids, all valid, ordered by descending similarity between user `u`'s
embedding row and the item rows (for any similarity kernel `sim`, in
particular the code's cosine); the result is a pure function of the
embeddings, hence deterministic. -/
theorem C7_recommend_topk_by_user_ids (sim : List ℚ → List ℚ → ℚ)
    (userEmb itemEmb : List (List ℚ)) (uid : ℤ) (k : ℕ)
    (hu0 : 0 ≤ uid) (hu1 : uid < (userEmb.length : ℤ))
    (hk : k ≤ itemEmb.length) :
    ∃ l : List ℕ,
      recommend_topk_by_user_ids sim userEmb itemEmb [uid] k = some [l] ∧
        l.length = k ∧ l.Nodup ∧ (∀ i ∈ l, i < itemEmb.length) ∧
        l.Pairwise (fun i j =>
          (itemEmb.map (fun irow => sim (userEmb.getD uid.toNat []) irow)).getD j 0 ≤
            (itemEmb.map (fun irow => sim (userEmb.getD uid.toNat []) irow)).getD i 0) := by
  have hrow : rowIndex userEmb uid = some (userEmb.getD uid.toNat []) := by
    unfold rowIndex
    rw [if_pos ⟨hu0, hu1⟩]
  have hks : k ≤ (itemEmb.map
      (fun irow => sim (userEmb.getD uid.toNat []) irow)).length := by
    rw [List.length_map]
    exact hk
  have htop : topkOpt (itemEmb.map
      (fun irow => sim (userEmb.getD uid.toNat []) irow)) k =
      some (topkIndices (itemEmb.map
        (fun irow => sim (userEmb.getD uid.toNat []) irow)) k) := by
    unfold topkOpt
    rw [if_pos hks]
  obtain ⟨l1, l2, l3, l4⟩ := topkIndices_spec (itemEmb.map
    (fun irow => sim (userEmb.getD uid.toNat []) irow)) k hks
  refine ⟨topkIndices (itemEmb.map
    (fun irow => sim (userEmb.getD uid.toNat []) irow)) k, ?_, l1, l2, ?_, l4⟩
  · unfold recommend_topk_by_user_ids
    rw [optionMapList_singleton, hrow]
    show (topkOpt (itemEmb.map
      (fun irow => sim (userEmb.getD uid.toNat []) irow)) k).map (fun b => [b]) = _
    rw [htop]
    rfl
  · intro i hi
    have := l3 i hi
    rwa [List.length_map] at this

/-- Witness for C7: one user embedding `[1,0]`, two item embeddings, top-2
under the dot-product kernel. -/
theorem C7_recommend_topk_by_user_ids_witness :
    ((0 : ℤ) ≤ 0 ∧ (0 : ℤ) < (([[1, 0]] : List (List ℚ)).length : ℤ) ∧
      2 ≤ ([[1, 0], [0, 1]] : List (List ℚ)).length) ∧
    (∃ l : List ℕ,
      recommend_topk_by_user_ids dotQ [[1, 0]] [[1, 0], [0, 1]] [0] 2 =
          some [l] ∧
        l.length = 2 ∧ l.Nodup ∧
        (∀ i ∈ l, i < ([[1, 0], [0, 1]] : List (List ℚ)).length) ∧
        l.Pairwise (fun i j =>
          (([[1, 0], [0, 1]] : List (List ℚ)).map (fun irow =>
            dotQ (([[1, 0]] : List (List ℚ)).getD (Int.toNat 0) []) irow)).getD j 0 ≤
            (([[1, 0], [0, 1]] : List (List ℚ)).map (fun irow =>
              dotQ (([[1, 0]] : List (List ℚ)).getD (Int.toNat 0) []) irow)).getD i 0)) :=
  ⟨⟨by decide, by decide, by decide⟩,
    C7_recommend_topk_by_user_ids dotQ [[1, 0]] [[1, 0], [0, 1]] 0 2
      (by decide) (by decide) (by decide)⟩

theorem optionMapList_rowIndex (itemEmb : List (List ℚ)) : ∀ ids : List ℤ,
    (∀ i ∈ ids, 0 ≤ i ∧ i < (itemEmb.length : ℤ)) →
    ∃ rows, optionMapList (fun iid => rowIndex itemEmb iid) ids = some rows := by
  intro ids
  induction ids with
  | nil => intro _; exact ⟨[], rfl⟩
  | cons a rest ih =>
    intro h
    obtain ⟨rows, hr⟩ := ih (fun i hi => h i (List.mem_cons_of_mem a hi))
    have ha := h a (List.mem_cons_self a rest)
    have hrowa : rowIndex itemEmb a = some (itemEmb.getD a.toNat []) := by
      unfold rowIndex
      rw [if_pos ⟨ha.1, ha.2⟩]
    exact ⟨itemEmb.getD a.toNat [] :: rows, by simp [optionMapList, hrowa, hr]⟩

/-- C8: for a non-empty list of valid item ids and `k ≤ items_size`,
`recommend_topk_by_item_ids` looks up the given rows, averages them into a
surrogate query vector, and succeeds with exactly `k` distinct valid item
ids ordered by descending similarity of each item row to that mean vector
(same structural guarantees as the known-user path, for any similarity
kernel `sim`). -/
theorem C8_recommend_topk_by_item_ids (sim : List ℚ → List ℚ → ℚ)
    (itemEmb : List (List ℚ)) (item_ids : List ℤ) (k : ℕ)
    (_hne : item_ids ≠ [])
    (hvalid : ∀ i ∈ item_ids, 0 ≤ i ∧ i < (itemEmb.length : ℤ))
    (hk : k ≤ itemEmb.length) :
    ∃ rows : List (List ℚ), ∃ l : List ℕ,
      optionMapList (fun iid => rowIndex itemEmb iid) item_ids = some rows ∧
        recommend_topk_by_item_ids sim itemEmb item_ids k = some l ∧
        l.length = k ∧ l.Nodup ∧ (∀ i ∈ l, i < itemEmb.length) ∧
        l.Pairwise (fun i j =>
          (itemEmb.map (fun irow => sim (meanVec rows) irow)).getD j 0 ≤
            (itemEmb.map (fun irow => sim (meanVec rows) irow)).getD i 0) := by
  obtain ⟨rows, hr⟩ := optionMapList_rowIndex itemEmb item_ids hvalid
  have hks : k ≤ (itemEmb.map (fun irow => sim (meanVec rows) irow)).length := by
    rw [List.length_map]
    exact hk
  have htop : topkOpt (itemEmb.map (fun irow => sim (meanVec rows) irow)) k =
      some (topkIndices (itemEmb.map (fun irow => sim (meanVec rows) irow)) k) := by
    unfold topkOpt
    rw [if_pos hks]
  obtain ⟨l1, l2, l3, l4⟩ := topkIndices_spec
    (itemEmb.map (fun irow => sim (meanVec rows) irow)) k hks
  refine ⟨rows, topkIndices
    (itemEmb.map (fun irow => sim (meanVec rows) irow)) k, hr, ?_, l1, l2, ?_, l4⟩
  · unfold recommend_topk_by_item_ids
    rw [hr]
    show topkOpt (itemEmb.map (fun irow => sim (meanVec rows) irow)) k = _
    rw [htop]
  · intro i hi
    have := l3 i hi
    rwa [List.length_map] at this

/-- Witness for C8: averaging item rows 0 and 2, top-3 over three items. -/
theorem C8_recommend_topk_by_item_ids_witness :
    (([0, 2] : List ℤ) ≠ [] ∧
      (∀ i ∈ ([0, 2] : List ℤ), 0 ≤ i ∧
        i < (([[1, 0], [0, 1], [1, 1]] : List (List ℚ)).length : ℤ)) ∧
      3 ≤ ([[1, 0], [0, 1], [1, 1]] : List (List ℚ)).length) ∧
    (∃ rows : List (List ℚ), ∃ l : List ℕ,
      optionMapList (fun iid => rowIndex [[1, 0], [0, 1], [1, 1]] iid) [0, 2] =
          some rows ∧
        recommend_topk_by_item_ids dotQ [[1, 0], [0, 1], [1, 1]] [0, 2] 3 =
          some l ∧
        l.length = 3 ∧ l.Nodup ∧
        (∀ i ∈ l, i < ([[1, 0], [0, 1], [1, 1]] : List (List ℚ)).length) ∧
        l.Pairwise (fun i j =>
          (([[1, 0], [0, 1], [1, 1]] : List (List ℚ)).map (fun irow =>
            dotQ (meanVec rows) irow)).getD j 0 ≤
            (([[1, 0], [0, 1], [1, 1]] : List (List ℚ)).map (fun irow =>
              dotQ (meanVec rows) irow)).getD i 0)) :=
  ⟨⟨by decide, by decide, by decide⟩,
    C8_recommend_topk_by_item_ids dotQ [[1, 0], [0, 1], [1, 1]] [0, 2] 3
      (by decide) (by decide) (by decide)⟩

/-- C9 counterexample: user id `-1` lies outside `[0, users_size)` (here
`users_size = 2`), yet `recommend_topk_by_user_ids` does not fail — Python
negative indexing silently addresses the last row, returning exactly user
`1`'s recommendations. -/
theorem C9_negative_id_counterexample :
    recommend_topk_by_user_ids dotQ [[1, 0], [0, 1]] [[1, 0], [0, 1]] [-1] 1 =
        recommend_topk_by_user_ids dotQ [[1, 0], [0, 1]] [[1, 0], [0, 1]] [1] 1 ∧
      (recommend_topk_by_user_ids dotQ [[1, 0], [0, 1]] [[1, 0], [0, 1]]
        [-1] 1).isSome = true := by
  decide

/-- C9 (amended): a user id at or above `users_size`, or below
`-users_size`, raises `IndexError` (no result); but a negative id in
`[-users_size, -1]` does not fail — it silently wraps, Python-style,
returning the recommendations of user `users_size + id`. -/
theorem C9_out_of_range_amended (sim : List ℚ → List ℚ → ℚ)
    (userEmb itemEmb : List (List ℚ)) (uid : ℤ) (k : ℕ) :
    ((userEmb.length : ℤ) ≤ uid ∨ uid < -(userEmb.length : ℤ) →
      recommend_topk_by_user_ids sim userEmb itemEmb [uid] k = none) ∧
      (-(userEmb.length : ℤ) ≤ uid → uid < 0 →
        recommend_topk_by_user_ids sim userEmb itemEmb [uid] k =
          recommend_topk_by_user_ids sim userEmb itemEmb
            [(userEmb.length : ℤ) + uid] k) := by
  have hlz : (0 : ℤ) ≤ (userEmb.length : ℤ) := Int.ofNat_nonneg _
  constructor
  · intro h
    have hrow : rowIndex userEmb uid = none := by
      unfold rowIndex
      rcases h with h | h
      · rw [if_neg, if_neg]
        · rintro ⟨_, h2⟩
          omega
        · rintro ⟨_, h2⟩
          omega
      · rw [if_neg, if_neg]
        · rintro ⟨h1, _⟩
          omega
        · rintro ⟨h1, _⟩
          omega
    simp [recommend_topk_by_user_ids, optionMapList, hrow]
  · intro h1 h2
    have hrowneg : rowIndex userEmb uid =
        some (userEmb.getD ((userEmb.length : ℤ) + uid).toNat []) := by
      unfold rowIndex
      rw [if_neg, if_pos ⟨h1, h2⟩]
      rintro ⟨h3, _⟩
      omega
    have hrowpos : rowIndex userEmb ((userEmb.length : ℤ) + uid) =
        some (userEmb.getD ((userEmb.length : ℤ) + uid).toNat []) := by
      unfold rowIndex
      rw [if_pos ⟨by omega, by omega⟩]
    simp [recommend_topk_by_user_ids, optionMapList, hrowneg, hrowpos]

/-- Witness for the amended C9: id `5` raises on a 2-user table, id `-1`
wraps to user `1`. -/
theorem C9_out_of_range_amended_witness :
    (((2 : ℤ) ≤ 5 ∨ (5 : ℤ) < -(2 : ℤ)) ∧
      recommend_topk_by_user_ids dotQ [[1, 0], [0, 1]] [[1, 0], [0, 1]] [5] 1 =
        none) ∧
      ((-(2 : ℤ) ≤ -1 ∧ (-1 : ℤ) < 0) ∧
        recommend_topk_by_user_ids dotQ [[1, 0], [0, 1]] [[1, 0], [0, 1]] [-1] 1 =
          recommend_topk_by_user_ids dotQ [[1, 0], [0, 1]] [[1, 0], [0, 1]]
            [1] 1) := by
  refine ⟨⟨by decide, ?_⟩, ⟨⟨by decide, by decide⟩, ?_⟩⟩
  · exact (C9_out_of_range_amended dotQ [[1, 0], [0, 1]] [[1, 0], [0, 1]] 5 1).1
      (by decide)
  · have h := (C9_out_of_range_amended dotQ [[1, 0], [0, 1]] [[1, 0], [0, 1]]
      (-1) 1).2 (by decide) (by decide)
    exact h.trans (by norm_num)

end De4Rec
